import Mathlib

/-!
Verification development for the object-finding core of `pypeit/core/findobj_skymask.py`
(functions `create_skymask`, `ech_objfind`, `objs_in_slit`).

Conventions of the shallow embedding:
* numpy floating-point arrays are modelled as `List ℚ` (or `ℕ → ℚ` grids); all
  arithmetic here is exact rational arithmetic, except for the FWHM model which
  needs a genuine square root and therefore lives in `ℝ`;
* fallible code is modelled with `Except`: `msgs.error` (which raises a fatal
  `PypeItError`) and a numpy `TypeError` both surface as `Except.error`;
* library services consumed by the core but implemented outside this file's
  source (`pixels.ximg_and_edgemask`, `arc.detect_peaks`, `np.exp`, spline
  interpolation, ...) enter as explicit function/array parameters, in keeping
  with the spec's description of them as opaque collaborators.
-/

/-! ### Peak phase of `objs_in_slit` (lines 1041-1158)

`objs_in_slit` first validates `peak_thresh`, then detects peaks on the smoothed
SNR profile (via the external `arc.detect_peaks`, whose output `x_peaks_all`
together with the interpolated `snr_peaks_all` is taken as input here), flags
peaks near the slit edges, and applies the `nperslit` cap.  The output is the
good-peak mask `peaks_gpm` that the rest of the function turns into `SpecObj`
records. -/

/-- Errors surfaced by the embedded `objs_in_slit` peak phase.  `configError`
models the fatal `msgs.error` raised for an invalid `peak_thresh` (line 1043);
`typeError` models the numpy `TypeError` raised on line 1152 (see
`objs_in_slit_peaks`). -/
inductive FindErr where
  | configError : FindErr
  | typeError : FindErr
deriving DecidableEq, Repr

/-- Line 1135: `near_edge_bpm = (x_peaks_all < trim_edg[0]) | (x_peaks_all > (nsamp - trim_edg[1]))`,
for one peak position `x`. -/
def nearEdgePeak (trim0 trim1 nsamp x : ℚ) : Bool :=
  decide (x < trim0) || decide (x > nsamp - trim1)

/-- The bad-pixel mask over all detected peaks (line 1135). -/
def nearEdgeBpm (trim0 trim1 nsamp : ℚ) (x_peaks_all : List ℚ) : List Bool :=
  x_peaks_all.map (nearEdgePeak trim0 trim1 nsamp)

/-- Peak phase of `objs_in_slit` (lines 1041-1158).

* Line 1042-1043: `peak_thresh` outside `[0, 1]` triggers `msgs.error`, which
  raises; no value is returned.
* Line 1135: edge trimming via `nearEdgeBpm`.
* Lines 1147-1158: the `nperslit` cap.  When `nperslit < npeak_not_near_edge`
  the source executes

  `snr_thresh = snr_peaks_all[np.logical_not(near_edge_bpm)].argsort()[::-1][nperslit-1]`
  `nperslit_bpm = np.logical_not(near_edge_bpm) & snr_peaks_all < snr_thresh`

  Python's `&` binds tighter than `<`, so the second line first evaluates
  `np.logical_not(near_edge_bpm) & snr_peaks_all`, a `numpy.bitwise_and` of a
  boolean array with a float array, which raises `TypeError` (no ufunc loop
  exists for that signature); the branch therefore never produces a value.
  (Even before that, `snr_thresh` has been rebound to an `argsort` *index*
  rather than an SNR value.)  This branch is modelled as `.error .typeError`.
* Otherwise `nperslit_bpm` is all-`False` and
  `peaks_gpm = np.logical_not(near_edge_bpm) & np.logical_not(nperslit_bpm)`
  (line 1158) reduces to the negation of the near-edge mask. -/
def objs_in_slit_peaks (peak_thresh : ℚ) (nperslit : Option ℕ)
    (trim0 trim1 nsamp : ℚ) (x_peaks_all snr_peaks_all : List ℚ) :
    Except FindErr (List Bool) :=
  if peak_thresh < 0 ∨ peak_thresh > 1 then
    .error .configError
  else
    let near_edge_bpm := nearEdgeBpm trim0 trim1 nsamp x_peaks_all
    let npeak_not_near_edge := near_edge_bpm.countP (fun b => !b)
    match nperslit with
    | some k =>
        if k < npeak_not_near_edge then
          .error .typeError
        else
          .ok (near_edge_bpm.map (fun b => !b))
    | none => .ok (near_edge_bpm.map (fun b => !b))

/-! ### FWHM assignment in `objs_in_slit` (lines 1209-1259 and 1343-1348)

`FWHM` values are genuine square roots, so this part of the model lives in `ℝ`
and is necessarily noncomputable. -/

/-- Model of `np.median` for a 1-d array: sort, then take the middle element
(odd length) or the mean of the two middle elements (even length).  (`np.median`
of an empty array is NaN; the junk value `0` stands in for that here and is
never relied upon.) -/
noncomputable def npMedian (l : List ℝ) : ℝ :=
  let s := l.insertionSort (· ≤ ·)
  if l.length % 2 = 1 then s.getD (l.length / 2) 0
  else (s.getD (l.length / 2 - 1) 0 + s.getD (l.length / 2) 0) / 2

/-- FWHM assigned to a regular (automatically detected) object, lines 1209-1259:
with `use_user_fwhm` the nominal `fwhm` is used directly; otherwise the
half-max-crossing measurement `fwhm_measure` (when one exists) is floored via
`np.sqrt(np.fmax(fwhm_measure**2 - fwhm**2, (fwhm/2.0)**2))` (line 1257), and
when no crossing exists (`fwhm_measure is None`) the nominal `fwhm` is used
(line 1259). -/
noncomputable def regFWHM (use_user_fwhm : Bool) (fwhm : ℝ) (fwhm_measure : Option ℝ) : ℝ :=
  if use_user_fwhm then fwhm
  else
    match fwhm_measure with
    | some m => Real.sqrt (max (m ^ 2 - fwhm ^ 2) ((fwhm / 2) ^ 2))
    | none => fwhm

/-- FWHM assigned to a hand-aperture object, lines 1343-1348: the user override
`hand_extract_fwhm` when given; otherwise the median of the regular detections'
FWHM values (`med_fwhm_reg`, line 1313) when any regular detection exists;
otherwise the nominal `fwhm`. -/
noncomputable def handFWHM (hand_extract_fwhm : Option ℝ) (reg_fwhms : List ℝ) (fwhm : ℝ) : ℝ :=
  match hand_extract_fwhm with
  | some w => w
  | none => if reg_fwhms.length > 0 then npMedian reg_fwhms else fwhm

/-! ### `np.interp` and the hand-aperture `smash_peakflux` (lines 1330-1333) -/

/-- Model of `np.interp x xp fp` for increasing `xp`: clamp to the end values
outside the range of `xp`, linear interpolation between bracketing nodes inside.
Mismatched or empty inputs give the junk value `0` (never relied upon). -/
def npInterp (x : ℚ) : List ℚ → List ℚ → ℚ
  | [_], y0 :: _ => y0
  | x0 :: x1 :: xs, y0 :: y1 :: ys =>
      if x ≤ x0 then y0
      else if x ≤ x1 then y0 + (y1 - y0) * (x - x0) / (x1 - x0)
      else npInterp x (x1 :: xs) (y1 :: ys)
  | _, _ => 0

/-- Model of `np.arange n` as rationals. -/
def npArange (n : ℕ) : List ℚ :=
  (List.range n).map (fun i => (i : ℚ))

/-- The slice of a hand-aperture `SpecObj` relevant to lines 1330-1333. -/
structure HandSpecObj where
  SPAT_FRACPOS : ℚ
  smash_peakflux : ℚ
deriving Repr

/-- Lines 1330-1333 of `objs_in_slit`: the hand object's fractional position is
interpolated from `ximg` (external spline; the result enters here as
`spat_fracpos`), then `smash_peakflux` is assigned twice in a row:

`thisobj.smash_peakflux = np.interp(thisobj.SPAT_FRACPOS*nsamp, np.arange(nsamp), flux_smash_smth)`
`thisobj.smash_peakflux = np.interp(thisobj.SPAT_FRACPOS*nsamp, np.arange(nsamp), snr_smash_smth)`

The second assignment overwrites the first, which is modelled here by the
sequential record updates. -/
def assignHandSmash (nsamp : ℕ) (flux_smash_smth snr_smash_smth : List ℚ)
    (spat_fracpos : ℚ) : HandSpecObj :=
  let thisobj : HandSpecObj :=
    { SPAT_FRACPOS := spat_fracpos
      smash_peakflux := npInterp (spat_fracpos * nsamp) (npArange nsamp) flux_smash_smth }
  let thisobj : HandSpecObj :=
    { thisobj with
      smash_peakflux := npInterp (spat_fracpos * nsamp) (npArange nsamp) snr_smash_smth }
  thisobj

/-! ### `create_skymask` (lines 31-147)

The image grids are modelled as total functions `ℕ → ℕ → _` over a
`nspec × nspat` index rectangle.  `ximg` (the fractional-position image from the
external `pixels.ximg_and_edgemask` service) and `np.exp` enter as parameters. -/

/-- The fields of a `SpecObj` read by `create_skymask`.  `smash_peakflux` is
`Option ℚ` because the source distinguishes `None` from numbers (lines 85 and
137-138). -/
structure SkyObj where
  smash_peakflux : Option ℚ
  smash_snr : ℚ
  SPAT_FRACPOS : ℚ
  maskwidth : ℚ
  FWHM : ℚ
  TRACE_SPAT : ℕ → ℚ

/-- Number of `true` cells of a boolean grid over the `nspec × nspat` rectangle. -/
def gridCount (nspec nspat : ℕ) (g : ℕ → ℕ → Bool) : ℕ :=
  ((List.range nspec).map (fun r => (List.range nspat).countP (fun c => g r c))).sum

/-- Line 73: `nsamp = np.ceil(xsize.max())` with `xsize = slit_righ - slit_left`,
returned as a natural number (the source keeps it as a float but only ever uses
the integral value). -/
def nsampOf (nspec : ℕ) (slit_left slit_righ : ℕ → ℚ) : ℕ :=
  (Int.ceil ((((List.range nspec).map (fun r => slit_righ r - slit_left r)).maximum?).getD 0)).toNat

/-- Line 81: `xtmp = (np.arange(nsamp) + 0.5)/nsamp`. -/
def xtmpOf (nsamp : ℕ) : List ℚ :=
  (List.range nsamp).map (fun i => ((i : ℚ) + 1 / 2) / (nsamp : ℚ))

/-- Lines 86-94: the analytic Gaussian SNR profile of one object, sampled on the
`xtmp` grid; `qobj` is zero outside `sep <= maskwidth/nsamp` and otherwise
`smash_snr * np.exp(np.fmax(-2.77*(sep*nsamp)**2/FWHM**2, -9.0))`.  `e` models
`np.exp`. -/
def qobjOf (e : ℚ → ℚ) (nsamp : ℕ) (o : SkyObj) : List ℚ :=
  (xtmpOf nsamp).map (fun t =>
    let sep := |t - o.SPAT_FRACPOS|
    if sep ≤ o.maskwidth / (nsamp : ℚ) then
      o.smash_snr * e (max (-(277 / 100) * (sep * (nsamp : ℚ)) ^ 2 / o.FWHM ^ 2) (-9))
    else 0)

/-- Lines 76-95: `skymask_objflux` starts as a copy of `thismask`; for every
object whose `smash_peakflux` is neither `0.` nor `None` (line 85), the on-slit
pixels where the interpolated profile reaches `skymask_snr_thresh` are removed
(`&=` accumulation, line 95).  Pixels off the slit keep their `thismask` value. -/
def skymaskObjflux (e : ℚ → ℚ) (sobjs : List SkyObj) (nspec : ℕ)
    (thismask : ℕ → ℕ → Bool) (ximg : ℕ → ℕ → ℚ) (slit_left slit_righ : ℕ → ℚ)
    (skymask_snr_thresh : ℚ) : ℕ → ℕ → Bool :=
  fun r c =>
    let nsamp := nsampOf nspec slit_left slit_righ
    thismask r c &&
      sobjs.all (fun o =>
        if o.smash_peakflux ≠ some 0 ∧ o.smash_peakflux ≠ none then
          decide (npInterp (ximg r c) (xtmpOf nsamp) (qobjOf e nsamp o) < skymask_snr_thresh)
        else true)

/-- Lines 106-112 without the safety check: for each object a band of
`skymask_radius` pixels (the boxcar radius when given, else the object's FWHM,
line 108) around its trace is removed from `thismask`; `spat_img` is the column
index and `slit_img` the trace value replicated along the row (lines 101, 110-111). -/
def skymaskFwhmBase (sobjs : List SkyObj) (thismask : ℕ → ℕ → Bool)
    (box_rad_pix : Option ℚ) : ℕ → ℕ → Bool :=
  fun r c =>
    thismask r c &&
      sobjs.all (fun o =>
        let skymask_radius := box_rad_pix.getD o.FWHM
        !(thismask r c && decide ((c : ℚ) > o.TRACE_SPAT r - skymask_radius)
            && decide ((c : ℚ) < o.TRACE_SPAT r + skymask_radius)))

/-- Lines 97-118: the geometric mask.  With no objects it is a copy of
`thismask`; otherwise bands are removed (`skymaskFwhmBase`) and, when the
removal would keep fewer than 10% of the on-slit pixels
(`np.sum(skymask_fwhm)/np.sum(thismask) < 0.10`, line 115), the mask is reset to
the full `thismask`.  (When `np.sum(thismask) = 0` the float quotient is NaN and
the comparison is false, hence the explicit non-zero conjunct.) -/
def skymaskFwhm (sobjs : List SkyObj) (nspec nspat : ℕ) (thismask : ℕ → ℕ → Bool)
    (box_rad_pix : Option ℚ) : ℕ → ℕ → Bool :=
  if sobjs.length > 0 then
    let base := skymaskFwhmBase sobjs thismask box_rad_pix
    let cf := gridCount nspec nspat base
    let ct := gridCount nspec nspat thismask
    if ct ≠ 0 ∧ (cf : ℚ) / (ct : ℚ) < 1 / 10 then thismask else base
  else thismask

/-- Line 147: `skymask[thismask]`, the row-major list of mask values at on-slit
pixels. -/
def restrictToSlit (nspec nspat : ℕ) (thismask : ℕ → ℕ → Bool)
    (mask : ℕ → ℕ → Bool) : List Bool :=
  (List.range nspec).flatMap (fun r =>
    ((List.range nspat).filter (fun c => thismask r c)).map (fun c => mask r c))

/-- `create_skymask` (lines 31-147): build the flux-based and geometric masks,
combine them with `|` when no boxcar radius was passed and every object carries
a `smash_peakflux` that is neither `None` nor `0.` (lines 137-142), with `&`
otherwise (lines 143-144), and return the combined mask restricted to on-slit
pixels (line 147). -/
def create_skymask (e : ℚ → ℚ) (sobjs : List SkyObj) (nspec nspat : ℕ)
    (thismask : ℕ → ℕ → Bool) (ximg : ℕ → ℕ → ℚ) (slit_left slit_righ : ℕ → ℚ)
    (box_rad_pix : Option ℚ) (skymask_snr_thresh : ℚ) : List Bool :=
  let skymask_objflux := skymaskObjflux e sobjs nspec thismask ximg slit_left slit_righ
    skymask_snr_thresh
  let skymask_fwhm := skymaskFwhm sobjs nspec nspat thismask box_rad_pix
  let skymask : ℕ → ℕ → Bool :=
    if box_rad_pix = none ∧ (∀ o ∈ sobjs, o.smash_peakflux ≠ none)
        ∧ (∀ o ∈ sobjs, o.smash_peakflux ≠ some 0) then
      fun r c => skymask_objflux r c || skymask_fwhm r c
    else
      fun r c => skymask_objflux r c && skymask_fwhm r c
  restrictToSlit nspec nspat thismask skymask

/-! ### `ech_objfind` pruning (lines 670-708)

Per linked object (`iobj`) the quick-look extraction has produced a per-order
S/N column `SNR_arr[:, iobj]` and the hand-aperture matching flag
`hand_ap_flag` (line 685, a rounded-fractional-position membership test in
`hand_frac`; the flag value enters the model directly). -/

/-- Computable `np.median` over rationals (same middle-of-sorted-list rule as
`npMedian`). -/
def npMedianQ (l : List ℚ) : ℚ :=
  let s := l.insertionSort (· ≤ ·)
  if l.length % 2 = 1 then s.getD (l.length / 2) 0
  else (s.getD (l.length / 2 - 1) 0 + s.getD (l.length / 2) 0) / 2

/-- Model of `np.max` over a rational list (junk `0` for the empty list, which
the source never hits: every `SNR_arr` column has one entry per order). -/
def npMaxQ : List ℚ → ℚ
  | [] => 0
  | a :: t => t.foldl max a

/-- One linked (friends-of-friends) object group as seen by the pruning loop:
its per-order quick-look S/N column and its hand-aperture flag. -/
structure EchGroup where
  snr : List ℚ
  hand_ap_flag : Bool
deriving Repr

/-- Line 683: `isort_SNR_max = np.argsort(np.median(SNR_arr, axis=0))[::-1]` —
the object indices sorted by ascending median S/N, then reversed. -/
def isortSnrMax (gs : List EchGroup) : List ℕ :=
  ((List.range gs.length).insertionSort
    (fun i j => npMedianQ ((gs.getD i ⟨[], false⟩).snr) ≤ npMedianQ ((gs.getD j ⟨[], false⟩).snr))).reverse

/-- Line 686: `SNR_constraint = (SNR_arr[:,iobj].max() > max_snr) or
(np.sum(SNR_arr[:,iobj] > min_snr) >= nabove_min_snr)`. -/
def snrConstraint (max_snr min_snr : ℚ) (nabove_min_snr : ℕ) (g : EchGroup) : Bool :=
  decide (npMaxQ g.snr > max_snr)
    || decide (g.snr.countP (fun x => decide (x > min_snr)) ≥ nabove_min_snr)

/-- The pruning loop of `ech_objfind`, lines 672-708, reduced to the `keep_obj`
flags.  State: `(keep_obj, iobj_keep, iobj_keep_not_hand)` with both counters
starting at 1 (lines 675-676).  Per object, in `isortSnrMax` order:
`nperorder_constraint = (iobj_keep-1) < nperorder` (line 687) and the object is
kept when `(SNR_constraint and nperorder_constraint) or hand_ap_flag`
(line 688); `iobj_keep` is incremented for every kept object (line 698) and
`iobj_keep_not_hand` only for kept non-hand objects (lines 699-700) —
`iobj_keep_not_hand` is never read back into the constraint, only reported in
the purge message (line 705). -/
def pruneKeepObj (nperorder : ℕ) (max_snr min_snr : ℚ) (nabove_min_snr : ℕ)
    (gs : List EchGroup) : List Bool :=
  let st := (isortSnrMax gs).foldl
    (fun (st : List Bool × ℕ × ℕ) iobj =>
      let g := gs.getD iobj ⟨[], false⟩
      let nperorder_constraint := decide (st.2.1 - 1 < nperorder)
      if (snrConstraint max_snr min_snr nabove_min_snr g && nperorder_constraint)
          || g.hand_ap_flag then
        (st.1.set iobj true, st.2.1 + 1, if g.hand_ap_flag then st.2.2 else st.2.2 + 1)
      else st)
    (List.replicate gs.length false, 1, 1)
  st.1

/-! ### `ech_objfind` PCA trace refinement (lines 763-768)

After the PCA prediction and the two-stage iterative centroiding (external
`fit_trace` service) produced the refined traces `xfit_gweight`, the loop

`for iord, spec in enumerate(sobjs_final[indx_obj_id]):`
`    if spec.ech_frac_was_fit & (spec.ech_snr > 1.0):`
`        spec.TRACE_SPAT = xfit_gweight[:,iord]`
`        spec.SPAT_PIXPOS = spec.TRACE_SPAT[specmid]`

overwrites the trace of a member object only under that condition. -/

/-- The fields of one per-order member of a kept echelle object group that the
refinement loop touches. -/
structure EchMember where
  ech_frac_was_fit : Bool
  ech_snr : ℚ
  TRACE_SPAT : ℕ → ℚ
  SPAT_PIXPOS : ℚ

instance : Inhabited EchMember := ⟨⟨false, 0, fun _ => 0, 0⟩⟩

/-- Lines 763-768: `xfit_gweight` is indexed as `xfit iord spec_pixel`; member
`iord` of the enumerated group gets the refined trace and the derived
`SPAT_PIXPOS` exactly when `ech_frac_was_fit & (ech_snr > 1.0)`. -/
def refinePcaTraces (xfit_gweight : ℕ → ℕ → ℚ) (specmid : ℕ)
    (members : List EchMember) : List EchMember :=
  members.enum.map (fun p =>
    if p.2.ech_frac_was_fit && decide (p.2.ech_snr > 1) then
      { p.2 with
        TRACE_SPAT := xfit_gweight p.1
        SPAT_PIXPOS := xfit_gweight p.1 specmid }
    else p.2)

/-! ### `ech_objfind` duplicate resolution (lines 483-506)

After friends-of-friends grouping, `obj_id_init` holds one group id per
detection.  The loop below scans every `(group, order)` pair; whenever a group
has more than one detection on one order it keeps the detection closest to the
group's mean fractional position on the *other* orders (or the first detection,
`min_dist_ind = 0`, when the group has no member on any other order) and
reassigns fresh ids `obj_id.max() + 1, obj_id.max() + 2, ...` to the rest.

The arrays `obj_id_init`, `sobjs.ECH_ORDERINDX` and `fracpos` are immutable
throughout the loop and are bundled per detection in `EchDet`; `obj_id` is the
single mutable array (`List ℤ`). -/

/-- The immutable per-detection data read by the duplicate-resolution loop:
the initial friends-of-friends group id (`obj_id_init`), the order index
(`ECH_ORDERINDX`) and the fractional slit position (`SPAT_FRACPOS`). -/
structure EchDet where
  gini : ℤ
  ordI : ℕ
  frac : ℚ
deriving DecidableEq, Repr

instance : Inhabited EchDet := ⟨⟨0, 0, 0⟩⟩

/-- Model of `.max()` for the `obj_id` array (the source only calls it on
nonempty arrays; `0` is the junk value for the empty case). -/
def npMaxZ : List ℤ → ℤ
  | [] => 0
  | a :: t => t.foldl max a

/-- Line 487/492: `ind = np.where((obj_id_init == uni_obj_id_init[iobj]) &
(sobjs.ECH_ORDERINDX == iord))[0]`, the (sorted) positions of group `g` on
order `o`. -/
def memberIdx (dets : List EchDet) (g : ℤ) (o : ℕ) : List ℕ :=
  (List.range dets.length).filter
    (fun i => (dets.getD i default).gini == g && (dets.getD i default).ordI == o)

/-- Line 491/496: the fractional positions of group `g` on orders other than
`o` (`fracpos[off_order]`). -/
def offFracs (dets : List EchDet) (g : ℤ) (o : ℕ) : List ℚ :=
  (dets.filter (fun d => d.gini == g && !(d.ordI == o))).map EchDet.frac

/-- Line 497: `np.argmin(np.abs(fracpos[ind] - frac_mean))` realised over the
index list itself — the member of `ind` whose fractional position is closest to
`fm`, the first one on ties (as `np.argmin` returns the first minimum). -/
def argminAbsFrac (dets : List EchDet) (fm : ℚ) : List ℕ → ℕ
  | [] => 0
  | [i] => i
  | i :: j :: rest =>
      let k := argminAbsFrac dets fm (j :: rest)
      if |(dets.getD i default).frac - fm| ≤ |(dets.getD k default).frac - fm| then i else k

/-- Lines 493-502: the member of `memberIdx dets g o` that keeps the group id —
the one closest to `frac_mean = np.mean(fracpos[off_order])` when the group has
members on other orders, else the first member (`min_dist_ind = 0`). -/
def keeperIdx (dets : List EchDet) (g : ℤ) (o : ℕ) : ℕ :=
  if (offFracs dets g o).isEmpty then (memberIdx dets g o).headD 0
  else
    argminAbsFrac dets ((offFracs dets g o).sum / ((offFracs dets g o).length : ℚ))
      (memberIdx dets g o)

/-- One iteration of the inner loop (lines 487-506) for the pair `(g, o)`: when
the group has at most one detection on the order nothing happens; otherwise all
members except the keeper (`ind_rest = np.setdiff1d(ind, ind[min_dist_ind])`,
which is `ind` minus the keeper in ascending order) receive the fresh ids
`(np.arange(len(ind_rest)) + 1) + obj_id.max()` in order. -/
def dedupStep (dets : List EchDet) (g : ℤ) (o : ℕ) (obj_id : List ℤ) : List ℤ :=
  if (memberIdx dets g o).length ≤ 1 then obj_id
  else
    obj_id.enum.map (fun p =>
      if p.1 ∈ (memberIdx dets g o).erase (keeperIdx dets g o) then
        npMaxZ obj_id + 1
          + (((memberIdx dets g o).erase (keeperIdx dets g o)).indexOf p.1 : ℤ)
      else p.2)

/-- Model of `np.unique` (line 479): the distinct values in ascending order. -/
def npUnique (l : List ℤ) : List ℤ :=
  l.dedup.insertionSort (· ≤ ·)

/-- The full duplicate-resolution pass (lines 483-506): starting from
`obj_id = obj_id_init.copy()`, loop over the unique initial group ids
(`uni_obj_id_init`, outer loop line 485) and over all orders (inner loop
line 486), applying `dedupStep`.  Returns the final `obj_id` array. -/
def resolveDuplicates (norders : ℕ) (dets : List EchDet) : List ℤ :=
  (npUnique (dets.map EchDet.gini)).foldl
    (fun obj_id g =>
      (List.range norders).foldl (fun obj_id o => dedupStep dets g o obj_id) obj_id)
    (dets.map EchDet.gini)

/-- Loop invariant for the duplicate-resolution pass.  `done` is the list of
`(group, order)` pairs already processed; writing `M` for the maximum initial
group id (`npMaxZ (dets.map EchDet.gini)`), the clauses state: the id array
keeps its length; the running maximum never drops below `M`; every entry is
either still its initial group id or a fresh id above `M`; ids above `M` occur
at most once; every processed pair with duplicates has its keeper still
carrying the group id and all other members moved above `M`; and members of
unprocessed pairs are untouched. -/
def DedupInv (dets : List EchDet) (done : List (ℤ × ℕ)) (obj_id : List ℤ) : Prop :=
  obj_id.length = dets.length ∧
  npMaxZ (dets.map EchDet.gini) ≤ npMaxZ obj_id ∧
  (∀ i, i < dets.length →
    obj_id.getD i 0 = (dets.getD i default).gini ∨
      npMaxZ (dets.map EchDet.gini) < obj_id.getD i 0) ∧
  (∀ i j, i < dets.length → j < dets.length → i ≠ j →
    npMaxZ (dets.map EchDet.gini) < obj_id.getD i 0 →
      obj_id.getD i 0 ≠ obj_id.getD j 0) ∧
  (∀ g o, (g, o) ∈ done → 2 ≤ (memberIdx dets g o).length →
    obj_id.getD (keeperIdx dets g o) 0 = g ∧
    ∀ i ∈ memberIdx dets g o, i ≠ keeperIdx dets g o →
      npMaxZ (dets.map EchDet.gini) < obj_id.getD i 0) ∧
  (∀ i, i < dets.length →
    ((dets.getD i default).gini, (dets.getD i default).ordI) ∉ done →
    obj_id.getD i 0 = (dets.getD i default).gini)

/-- Concrete input for exercising the duplicate-resolution theorem: group `0`
has two detections on order `0` (fractional positions 2/5 and 3/5) and one on
order `1` (position 1/2). -/
def detsC5ex : List EchDet := [⟨0, 0, 2/5⟩, ⟨0, 0, 3/5⟩, ⟨0, 1, 1/2⟩]

/-! ### Helper lemmas -/

/-- A sorted-list median is bounded below by any lower bound of the list. -/
theorem npMedian_ge_of_forall_ge (c : ℝ) (l : List ℝ) (hne : l ≠ [])
    (h : ∀ x ∈ l, c ≤ x) : c ≤ npMedian l := by
  have hlen : (l.insertionSort (· ≤ ·)).length = l.length := List.length_insertionSort _ l
  have hmem : ∀ i, i < l.length → c ≤ (l.insertionSort (· ≤ ·)).getD i 0 := by
    intro i hi
    rw [List.getD_eq_getElem _ _ (by rw [hlen]; exact hi)]
    exact h _ ((List.mem_insertionSort _).mp (List.getElem_mem _))
  have hpos : 0 < l.length := List.length_pos.mpr hne
  unfold npMedian
  by_cases hodd : l.length % 2 = 1
  · rw [if_pos hodd]
    exact hmem _ (Nat.div_lt_self hpos (by norm_num))
  · rw [if_neg hodd]
    have h2 : 2 ≤ l.length := by omega
    have ha := hmem (l.length / 2 - 1) (by omega)
    have hb := hmem (l.length / 2) (Nat.div_lt_self hpos (by norm_num))
    linarith

/-- The restriction of any grid to the on-slit pixels has one entry per on-slit
pixel. -/
theorem restrictToSlit_length (nspec nspat : ℕ) (thismask mask : ℕ → ℕ → Bool) :
    (restrictToSlit nspec nspat thismask mask).length = gridCount nspec nspat thismask := by
  unfold restrictToSlit gridCount
  rw [List.length_flatMap]
  congr 1
  simp [Function.comp, List.countP_eq_length_filter]

/-- If a grid is true at every on-slit pixel, its restriction to the slit is the
all-true list. -/
theorem restrictToSlit_eq_replicate (nspec nspat : ℕ) (thismask mask : ℕ → ℕ → Bool)
    (h : ∀ r c, r < nspec → c < nspat → thismask r c = true → mask r c = true) :
    restrictToSlit nspec nspat thismask mask
      = List.replicate (gridCount nspec nspat thismask) true := by
  rw [List.eq_replicate_iff]
  refine ⟨restrictToSlit_length nspec nspat thismask mask, ?_⟩
  intro b hb
  unfold restrictToSlit at hb
  rw [List.mem_flatMap] at hb
  obtain ⟨r, hr, hb⟩ := hb
  rw [List.mem_map] at hb
  obtain ⟨c, hc, rfl⟩ := hb
  rw [List.mem_filter] at hc
  exact h r c (List.mem_range.mp hr) (List.mem_range.mp hc.1) hc.2

/-! ### Claims C1, C3, C9, C10 -/

/-- C1: the claim states that when more than `nperslit` non-edge peaks survive,
exactly the `nperslit` highest-SNR peaks are kept.  The code instead raises a
`TypeError` on that branch (line 1152 evaluates
`np.logical_not(near_edge_bpm) & snr_peaks_all`, a bitwise-and of a boolean and
a float array, because `&` binds tighter than `<`), so no result is returned at
all — contradicting the function's own docstring ("The code will take the
nperslit most significant detections").  First conjunct: three surviving peaks
with SNRs 5, 9, 7 and `nperslit = 2` produce the error.  Second conjunct: the
claim's other half does hold — when at most `nperslit` non-edge peaks survive,
no peak is removed by this step (all three remain good). -/
theorem C1_nperslit_typeerror :
    objs_in_slit_peaks 0 (some 2) 5 5 100 [20, 50, 80] [5, 9, 7]
        = .error .typeError ∧
    objs_in_slit_peaks 0 (some 3) 5 5 100 [20, 50, 80] [5, 9, 7]
        = .ok [true, true, true] := by
  constructor <;>
    norm_num [objs_in_slit_peaks, nearEdgeBpm, nearEdgePeak, List.countP, List.countP.go]

/-- C3 counterexample: with `peak_thresh = 2` the function does not return an
empty collection (no `.ok` value at all); it raises the fatal configuration
error of line 1043. -/
theorem C3_counterexample :
    objs_in_slit_peaks 2 none 5 5 100 [] [] = .error .configError ∧
    objs_in_slit_peaks 2 none 5 5 100 [] [] ≠ .ok [] := by
  have h : objs_in_slit_peaks 2 none 5 5 100 [] [] = .error .configError := by
    norm_num [objs_in_slit_peaks]
  refine ⟨h, ?_⟩
  rw [h]
  intro hc
  exact Except.noConfusion hc

/-- C3 (amended): for every call of `objs_in_slit` with `peak_thresh` outside
`[0, 1]`, the function raises a fatal configuration error and never returns a
result (empty or otherwise). -/
theorem C3_invalid_peak_thresh_raises (peak_thresh : ℚ) (nperslit : Option ℕ)
    (trim0 trim1 nsamp : ℚ) (x_peaks_all snr_peaks_all : List ℚ)
    (h : peak_thresh < 0 ∨ peak_thresh > 1) :
    objs_in_slit_peaks peak_thresh nperslit trim0 trim1 nsamp x_peaks_all snr_peaks_all
      = .error .configError := by
  unfold objs_in_slit_peaks
  rw [if_pos h]

/-- Witness for C3: `peak_thresh = 2` is outside `[0, 1]` and triggers the
configuration error. -/
theorem C3_invalid_peak_thresh_raises_witness :
    ((2 : ℚ) < 0 ∨ (2 : ℚ) > 1) ∧
    objs_in_slit_peaks 2 none 5 5 100 [] [] = .error .configError :=
  ⟨Or.inr (by norm_num),
    C3_invalid_peak_thresh_raises 2 none 5 5 100 [] [] (Or.inr (by norm_num))⟩

/-- C9: a peak exactly `trim_edg[0]` bins from the left boundary (or exactly at
`nsamp - trim_edg[1]`) is not flagged near-edge, hence retained by the edge
trimming step; a peak strictly below `trim_edg[0]` or strictly above
`nsamp - trim_edg[1]` is flagged and discarded (line 1135, with the
non-degeneracy assumption that the two margins do not overlap). -/
theorem C9_edge_trim_boundary (trim0 trim1 nsamp x : ℚ) (h : trim0 ≤ nsamp - trim1) :
    nearEdgePeak trim0 trim1 nsamp trim0 = false ∧
    nearEdgePeak trim0 trim1 nsamp (nsamp - trim1) = false ∧
    (x < trim0 → nearEdgePeak trim0 trim1 nsamp x = true) ∧
    (x > nsamp - trim1 → nearEdgePeak trim0 trim1 nsamp x = true) := by
  refine ⟨?_, ?_, ?_, ?_⟩
  · simp only [nearEdgePeak, Bool.or_eq_false_iff, decide_eq_false_iff_not]
    exact ⟨lt_irrefl _, not_lt.mpr h⟩
  · simp only [nearEdgePeak, Bool.or_eq_false_iff, decide_eq_false_iff_not]
    exact ⟨not_lt.mpr h, lt_irrefl _⟩
  · intro hx
    simp [nearEdgePeak, hx]
  · intro hx
    simp [nearEdgePeak, hx]

/-- Witness for C9 at `trim_edg = (5, 5)`, `nsamp = 100`, `x = 3`. -/
theorem C9_edge_trim_boundary_witness :
    ((5 : ℚ) ≤ 100 - 5) ∧
    (nearEdgePeak 5 5 100 5 = false ∧
     nearEdgePeak 5 5 100 (100 - 5) = false ∧
     ((3 : ℚ) < 5 → nearEdgePeak 5 5 100 3 = true) ∧
     ((3 : ℚ) > 100 - 5 → nearEdgePeak 5 5 100 3 = true)) :=
  ⟨by norm_num, C9_edge_trim_boundary 5 5 100 3 (by norm_num)⟩

/-- C10: the hand-aperture object's stored `smash_peakflux` equals the smoothed
SNR profile interpolated at its fractional position — the line-1332 assignment
from the flux profile is immediately overwritten by the line-1333 assignment
from the SNR profile, so the stored value does not depend on the flux profile
at all. -/
theorem C10_hand_smash_peakflux (nsamp : ℕ) (flux_smash_smth snr_smash_smth : List ℚ)
    (spat_fracpos : ℚ) :
    (assignHandSmash nsamp flux_smash_smth snr_smash_smth spat_fracpos).smash_peakflux
        = npInterp (spat_fracpos * nsamp) (npArange nsamp) snr_smash_smth ∧
    ∀ flux2 : List ℚ,
      assignHandSmash nsamp flux2 snr_smash_smth spat_fracpos
        = assignHandSmash nsamp flux_smash_smth snr_smash_smth spat_fracpos :=
  ⟨rfl, fun _ => rfl⟩

/-! ### Claim C2 -/

/-- C2 counterexample: a hand-aperture object created with a user FWHM override
of `1` while the nominal input `fwhm` is `3` stores `FWHM = 1`, which is below
the claimed floor `nominal/2 = 3/2`; the claim's universal floor over all
returned objects (hand apertures included) is therefore false. -/
theorem C2_counterexample :
    handFWHM (some 1) [] 3 = 1 ∧ (1 : ℝ) < 3 / 2 :=
  ⟨rfl, by norm_num⟩

/-- C2 (amended): for a nonnegative nominal `fwhm`, every automatically detected
object satisfies the floor `FWHM ≥ fwhm/2` (user-FWHM, measured and unmeasured
cases alike); the measured case equals
`sqrt(max(measured² - nominal², (nominal/2)²))`; and a hand aperture *without* a
user override (median-of-regular-detections or nominal fallback) also satisfies
the floor.  Hand apertures with a user override store the override verbatim and
are exempt from the floor (see the counterexample). -/
theorem C2_fwhm_floor_amended (fwhm : ℝ) (h : 0 ≤ fwhm) :
    (∀ (u : Bool) (m : Option ℝ), fwhm / 2 ≤ regFWHM u fwhm m) ∧
    (∀ m : ℝ, regFWHM false fwhm (some m)
        = Real.sqrt (max (m ^ 2 - fwhm ^ 2) ((fwhm / 2) ^ 2))) ∧
    (∀ reg_fwhms : List ℝ, (∀ x ∈ reg_fwhms, fwhm / 2 ≤ x) →
        fwhm / 2 ≤ handFWHM none reg_fwhms fwhm) := by
  have hhalf : (0 : ℝ) ≤ fwhm / 2 := by linarith
  refine ⟨?_, fun _ => rfl, ?_⟩
  · intro u m
    cases u with
    | true =>
        have he : regFWHM true fwhm m = fwhm := rfl
        rw [he]; linarith
    | false =>
        cases m with
        | none =>
            have he : regFWHM false fwhm none = fwhm := rfl
            rw [he]; linarith
        | some m =>
            have he : regFWHM false fwhm (some m)
                = Real.sqrt (max (m ^ 2 - fwhm ^ 2) ((fwhm / 2) ^ 2)) := rfl
            rw [he]
            calc fwhm / 2 = Real.sqrt ((fwhm / 2) ^ 2) := (Real.sqrt_sq hhalf).symm
              _ ≤ Real.sqrt (max (m ^ 2 - fwhm ^ 2) ((fwhm / 2) ^ 2)) :=
                  Real.sqrt_le_sqrt (le_max_right _ _)
  · intro regs hr
    unfold handFWHM
    by_cases hlen : regs.length > 0
    · rw [if_pos hlen]
      exact npMedian_ge_of_forall_ge _ _ (by intro hco; rw [hco] at hlen; simp at hlen) hr
    · rw [if_neg hlen]
      linarith

/-- Witness for C2 (amended) at nominal `fwhm = 3`. -/
theorem C2_fwhm_floor_amended_witness :
    (0 : ℝ) ≤ 3 ∧
    ((∀ (u : Bool) (m : Option ℝ), (3 : ℝ) / 2 ≤ regFWHM u 3 m) ∧
     (∀ m : ℝ, regFWHM false 3 (some m)
        = Real.sqrt (max (m ^ 2 - (3 : ℝ) ^ 2) (((3 : ℝ) / 2) ^ 2))) ∧
     (∀ reg_fwhms : List ℝ, (∀ x ∈ reg_fwhms, (3 : ℝ) / 2 ≤ x) →
        (3 : ℝ) / 2 ≤ handFWHM none reg_fwhms 3)) :=
  ⟨by norm_num, C2_fwhm_floor_amended 3 (by norm_num)⟩

/-! ### Claim C4 -/

/-- C4: the pruning loop's `nperorder` budget counts hand apertures.  With
`nperorder = 1`, a hand-aperture group of median S/N 5 is (correctly) always
kept, but the automatic group with per-order S/N 3 — which satisfies the S/N
constraint (`3 > max_snr = 2`, first conjunct) — is then purged because the kept
hand aperture already exhausted the budget (`iobj_keep - 1 = 1`, line 687 tests
`iobj_keep`, not `iobj_keep_not_hand`).  This contradicts the claim (and the
docstring, lines 302-305: hand apertures "do not count against this budget"). -/
theorem C4_prune_budget_counts_hand :
    snrConstraint 2 1 2 ⟨[3], false⟩ = true ∧
    pruneKeepObj 1 2 1 2 [⟨[5], true⟩, ⟨[3], false⟩] = [true, false] := by
  constructor
  · norm_num [snrConstraint, npMaxQ]
  · norm_num [pruneKeepObj, isortSnrMax, snrConstraint, npMaxQ, npMedianQ,
      List.insertionSort, List.orderedInsert, List.countP, List.countP.go, List.set]

/-! ### Claim C7 -/

/-- C7: in the PCA refinement loop a member's trace is replaced by the refined
centroid fit exactly when its fractional position was fit rather than observed
(`ech_frac_was_fit`) and its quick-look S/N exceeds 1.0; in particular a member
whose position was observed (`ech_frac_was_fit = false`) is left unchanged. -/
theorem C7_pca_refine_guard (xfit_gweight : ℕ → ℕ → ℚ) (specmid : ℕ)
    (members : List EchMember) (i : ℕ) (hi : i < members.length) :
    ((members.getD i default).ech_frac_was_fit = true →
      (members.getD i default).ech_snr > 1 →
        (refinePcaTraces xfit_gweight specmid members).getD i default
          = { members.getD i default with
              TRACE_SPAT := xfit_gweight i
              SPAT_PIXPOS := xfit_gweight i specmid }) ∧
    ((members.getD i default).ech_frac_was_fit = false ∨
        ¬(members.getD i default).ech_snr > 1 →
      (refinePcaTraces xfit_gweight specmid members).getD i default
        = members.getD i default) := by
  have hlen : (refinePcaTraces xfit_gweight specmid members).length = members.length := by
    simp [refinePcaTraces]
  have hkey : (refinePcaTraces xfit_gweight specmid members).getD i default
      = (if (members.getD i default).ech_frac_was_fit
            && decide ((members.getD i default).ech_snr > 1) then
           { members.getD i default with
             TRACE_SPAT := xfit_gweight i
             SPAT_PIXPOS := xfit_gweight i specmid }
         else members.getD i default) := by
    rw [List.getD_eq_getElem _ _ (by rw [hlen]; exact hi), List.getD_eq_getElem _ _ hi]
    unfold refinePcaTraces
    rw [List.getElem_map, List.getElem_enum]
  constructor
  · intro h1 h2
    rw [hkey, if_pos (by rw [Bool.and_eq_true]; exact ⟨h1, decide_eq_true h2⟩)]
  · intro hcase
    rcases hcase with h1 | h2
    · rw [hkey, if_neg (by rw [h1]; simp)]
    · rw [hkey, if_neg (fun hc => h2 (of_decide_eq_true ((Bool.and_eq_true _ _).mp hc).2))]

/-- Witness for C7: a two-member group (one observed, one fit with S/N 2) at
index 0. -/
theorem C7_pca_refine_guard_witness :
    (0 < [(⟨false, 2, fun _ => 0, 0⟩ : EchMember), ⟨true, 2, fun _ => 1, 1⟩].length) ∧
    ((([(⟨false, 2, fun _ => 0, 0⟩ : EchMember), ⟨true, 2, fun _ => 1, 1⟩].getD 0
          default).ech_frac_was_fit = true →
      (([(⟨false, 2, fun _ => 0, 0⟩ : EchMember), ⟨true, 2, fun _ => 1, 1⟩].getD 0
          default).ech_snr > 1 →
        (refinePcaTraces (fun _ _ => 5) 0
            [(⟨false, 2, fun _ => 0, 0⟩ : EchMember), ⟨true, 2, fun _ => 1, 1⟩]).getD 0 default
          = { ([(⟨false, 2, fun _ => 0, 0⟩ : EchMember), ⟨true, 2, fun _ => 1, 1⟩].getD 0
                default) with
              TRACE_SPAT := (fun _ _ => (5 : ℚ)) 0
              SPAT_PIXPOS := (fun _ _ => (5 : ℚ)) 0 0 })) ∧
     (([(⟨false, 2, fun _ => 0, 0⟩ : EchMember), ⟨true, 2, fun _ => 1, 1⟩].getD 0
          default).ech_frac_was_fit = false ∨
        ¬(([(⟨false, 2, fun _ => 0, 0⟩ : EchMember), ⟨true, 2, fun _ => 1, 1⟩].getD 0
          default).ech_snr > 1) →
      (refinePcaTraces (fun _ _ => 5) 0
          [(⟨false, 2, fun _ => 0, 0⟩ : EchMember), ⟨true, 2, fun _ => 1, 1⟩]).getD 0 default
        = [(⟨false, 2, fun _ => 0, 0⟩ : EchMember), ⟨true, 2, fun _ => 1, 1⟩].getD 0
            default)) :=
  ⟨by norm_num,
    C7_pca_refine_guard (fun _ _ => 5) 0
      [(⟨false, 2, fun _ => 0, 0⟩ : EchMember), ⟨true, 2, fun _ => 1, 1⟩] 0 (by norm_num)⟩

/-! ### Claims C6 and C8 -/

/-- C6: `create_skymask` combines the flux-based and geometric masks with OR
exactly when no boxcar radius was passed and every object carries a peak-flux
measurement that is neither `None` nor zero, and with AND in every other case
(lines 137-144); the returned array holds exactly the combined-mask entries at
on-slit pixels (one entry per `thismask`-true pixel, line 147). -/
theorem C6_skymask_combination (e : ℚ → ℚ) (sobjs : List SkyObj) (nspec nspat : ℕ)
    (thismask : ℕ → ℕ → Bool) (ximg : ℕ → ℕ → ℚ) (slit_left slit_righ : ℕ → ℚ)
    (box_rad_pix : Option ℚ) (skymask_snr_thresh : ℚ) :
    ((box_rad_pix = none ∧
        ∀ o ∈ sobjs, o.smash_peakflux ≠ none ∧ o.smash_peakflux ≠ some 0) →
      create_skymask e sobjs nspec nspat thismask ximg slit_left slit_righ
          box_rad_pix skymask_snr_thresh
        = restrictToSlit nspec nspat thismask (fun r c =>
            skymaskObjflux e sobjs nspec thismask ximg slit_left slit_righ
                skymask_snr_thresh r c
              || skymaskFwhm sobjs nspec nspat thismask box_rad_pix r c)) ∧
    (¬(box_rad_pix = none ∧
        ∀ o ∈ sobjs, o.smash_peakflux ≠ none ∧ o.smash_peakflux ≠ some 0) →
      create_skymask e sobjs nspec nspat thismask ximg slit_left slit_righ
          box_rad_pix skymask_snr_thresh
        = restrictToSlit nspec nspat thismask (fun r c =>
            skymaskObjflux e sobjs nspec thismask ximg slit_left slit_righ
                skymask_snr_thresh r c
              && skymaskFwhm sobjs nspec nspat thismask box_rad_pix r c)) ∧
    (create_skymask e sobjs nspec nspat thismask ximg slit_left slit_righ
        box_rad_pix skymask_snr_thresh).length = gridCount nspec nspat thismask := by
  have hiff : (box_rad_pix = none ∧ (∀ o ∈ sobjs, o.smash_peakflux ≠ none)
        ∧ (∀ o ∈ sobjs, o.smash_peakflux ≠ some 0))
      ↔ (box_rad_pix = none ∧
        ∀ o ∈ sobjs, o.smash_peakflux ≠ none ∧ o.smash_peakflux ≠ some 0) := by
    constructor
    · rintro ⟨hb, h1, h2⟩
      exact ⟨hb, fun o ho => ⟨h1 o ho, h2 o ho⟩⟩
    · rintro ⟨hb, h12⟩
      exact ⟨hb, fun o ho => (h12 o ho).1, fun o ho => (h12 o ho).2⟩
  refine ⟨?_, ?_, ?_⟩
  · intro hc
    unfold create_skymask
    split
    · rfl
    · next hx => exact absurd (hiff.mpr hc) hx
  · intro hc
    unfold create_skymask
    split
    · next hx => exact absurd (hiff.mp hx) hc
    · rfl
  · unfold create_skymask
    split
    · exact restrictToSlit_length nspec nspat thismask _
    · exact restrictToSlit_length nspec nspat thismask _

/-- Witness for C6: one object with `smash_peakflux = 1` and no boxcar radius;
the first conjunct of `C6_skymask_combination` yields the OR combination. -/
theorem C6_skymask_combination_witness :
    (((none : Option ℚ) = none ∧
        ∀ o ∈ [(⟨some 1, 2, 1/2, 1, 1, fun _ => 0⟩ : SkyObj)],
          o.smash_peakflux ≠ none ∧ o.smash_peakflux ≠ some 0) ∧
     create_skymask (fun _ => 0) [(⟨some 1, 2, 1/2, 1, 1, fun _ => 0⟩ : SkyObj)] 1 1
          (fun _ _ => true) (fun _ _ => 0) (fun _ => 0) (fun _ => 1) none 1
        = restrictToSlit 1 1 (fun _ _ => true) (fun r c =>
            skymaskObjflux (fun _ => 0) [(⟨some 1, 2, 1/2, 1, 1, fun _ => 0⟩ : SkyObj)] 1
                (fun _ _ => true) (fun _ _ => 0) (fun _ => 0) (fun _ => 1) 1 r c
              || skymaskFwhm [(⟨some 1, 2, 1/2, 1, 1, fun _ => 0⟩ : SkyObj)] 1 1
                  (fun _ _ => true) none r c)) :=
  ⟨⟨rfl, by intro o ho; rw [List.mem_singleton] at ho; rw [ho]; exact ⟨by simp, by simp⟩⟩,
    (C6_skymask_combination (fun _ => 0) [(⟨some 1, 2, 1/2, 1, 1, fun _ => 0⟩ : SkyObj)] 1 1
        (fun _ _ => true) (fun _ _ => 0) (fun _ => 0) (fun _ => 1) none 1).1
      ⟨rfl, by intro o ho; rw [List.mem_singleton] at ho; rw [ho]; exact ⟨by simp, by simp⟩⟩⟩

/-- C8: `create_skymask` on a slit with zero detected objects returns the full
on-slit mask unchanged — the all-true list with one entry per on-slit pixel —
for every slit geometry and every value of `box_rad_pix`. -/
theorem C8_empty_collection_full_mask (e : ℚ → ℚ) (nspec nspat : ℕ)
    (thismask : ℕ → ℕ → Bool) (ximg : ℕ → ℕ → ℚ) (slit_left slit_righ : ℕ → ℚ)
    (box_rad_pix : Option ℚ) (skymask_snr_thresh : ℚ) :
    create_skymask e [] nspec nspat thismask ximg slit_left slit_righ
        box_rad_pix skymask_snr_thresh
      = List.replicate (gridCount nspec nspat thismask) true := by
  unfold create_skymask
  split
  · apply restrictToSlit_eq_replicate
    intro r c _ _ ht
    simp [skymaskObjflux, skymaskFwhm, ht]
  · apply restrictToSlit_eq_replicate
    intro r c _ _ ht
    simp [skymaskObjflux, skymaskFwhm, ht]

/-! ### Duplicate-resolution helper lemmas (claim C5) -/

/-- A left fold of `max` is bounded below by its initial value. -/
theorem le_foldl_max_init (l : List ℤ) : ∀ a : ℤ, a ≤ l.foldl max a := by
  induction l with
  | nil => intro a; exact le_refl a
  | cons b t ih => intro a; exact le_trans (le_max_left a b) (ih (max a b))

/-- A left fold of `max` is bounded below by every list element. -/
theorem le_foldl_max_mem {l : List ℤ} {x : ℤ} (hx : x ∈ l) : ∀ a : ℤ, x ≤ l.foldl max a := by
  induction l with
  | nil => cases hx
  | cons b t ih =>
      intro a
      rcases List.mem_cons.mp hx with rfl | hxt
      · exact le_trans (le_max_right a x) (le_foldl_max_init t (max a x))
      · exact ih hxt (max a b)

/-- Every element of a list is at most its `npMaxZ`. -/
theorem le_npMaxZ {l : List ℤ} {x : ℤ} (hx : x ∈ l) : x ≤ npMaxZ l := by
  cases l with
  | nil => cases hx
  | cons a t =>
      rcases List.mem_cons.mp hx with rfl | hxt
      · exact le_foldl_max_init t x
      · exact le_foldl_max_mem hxt a

/-- Membership characterisation of `memberIdx`. -/
theorem mem_memberIdx {dets : List EchDet} {g : ℤ} {o : ℕ} {i : ℕ} :
    i ∈ memberIdx dets g o ↔
      i < dets.length ∧ (dets.getD i default).gini = g ∧ (dets.getD i default).ordI = o := by
  unfold memberIdx
  simp only [List.mem_filter, List.mem_range, Bool.and_eq_true, beq_iff_eq]

/-- The member list of a `(group, order)` pair has no duplicate indices. -/
theorem memberIdx_nodup (dets : List EchDet) (g : ℤ) (o : ℕ) :
    (memberIdx dets g o).Nodup :=
  (List.nodup_range _).filter _

/-- `argminAbsFrac` returns an element of a nonempty index list. -/
theorem argminAbsFrac_mem (dets : List EchDet) (fm : ℚ) :
    ∀ l : List ℕ, l ≠ [] → argminAbsFrac dets fm l ∈ l := by
  intro l
  induction l with
  | nil => intro h; exact absurd rfl h
  | cons i t ih =>
      intro _
      cases t with
      | nil => simp [argminAbsFrac]
      | cons j rest =>
          show (if _ then i else argminAbsFrac dets fm (j :: rest)) ∈ i :: j :: rest
          split
          · exact List.mem_cons_self i (j :: rest)
          · exact List.mem_cons_of_mem i (ih (List.cons_ne_nil j rest))

/-- The keeper of a pair with at least one member is itself a member. -/
theorem keeperIdx_mem {dets : List EchDet} {g : ℤ} {o : ℕ}
    (h : memberIdx dets g o ≠ []) : keeperIdx dets g o ∈ memberIdx dets g o := by
  unfold keeperIdx
  split
  · cases hm : memberIdx dets g o with
    | nil => exact absurd hm h
    | cons a t => exact List.mem_cons_self a t
  · exact argminAbsFrac_mem dets _ _ h

/-- `dedupStep` never changes the length of the id array. -/
theorem dedupStep_length (dets : List EchDet) (g : ℤ) (o : ℕ) (obj_id : List ℤ) :
    (dedupStep dets g o obj_id).length = obj_id.length := by
  unfold dedupStep
  split
  · rfl
  · rw [List.length_map, List.enum_length]

/-- `dedupStep` is the identity on a pair with at most one member. -/
theorem dedupStep_of_le_one {dets : List EchDet} {g : ℤ} {o : ℕ} (obj_id : List ℤ)
    (h : (memberIdx dets g o).length ≤ 1) : dedupStep dets g o obj_id = obj_id := by
  unfold dedupStep
  rw [if_pos h]

/-- Pointwise description of `dedupStep`: on an active pair (at least two
members) the non-keeper members receive the fresh ids
`npMaxZ obj_id + 1 + rank`, everything else is unchanged. -/
theorem dedupStep_getD (dets : List EchDet) (g : ℤ) (o : ℕ) (obj_id : List ℤ)
    (i : ℕ) (hi : i < obj_id.length) :
    (dedupStep dets g o obj_id).getD i 0
      = if 2 ≤ (memberIdx dets g o).length
            ∧ i ∈ (memberIdx dets g o).erase (keeperIdx dets g o) then
          npMaxZ obj_id + 1
            + (((memberIdx dets g o).erase (keeperIdx dets g o)).indexOf i : ℤ)
        else obj_id.getD i 0 := by
  unfold dedupStep
  split
  · next hle =>
      rw [if_neg]
      rintro ⟨h2, _⟩
      omega
  · next hgt =>
      rw [List.getD_eq_getElem _ _ (by rw [List.length_map, List.enum_length]; exact hi),
        List.getD_eq_getElem _ _ hi, List.getElem_map, List.getElem_enum]
      by_cases hmem : i ∈ (memberIdx dets g o).erase (keeperIdx dets g o)
      · rw [if_pos hmem, if_pos ⟨by omega, hmem⟩]
      · rw [if_neg hmem, if_neg (fun hc => hmem hc.2)]

/-- `getD` through `List.map EchDet.gini`. -/
theorem getD_map_gini (dets : List EchDet) (i : ℕ) (hi : i < dets.length) :
    (dets.map EchDet.gini).getD i 0 = (dets.getD i default).gini := by
  rw [List.getD_eq_getElem _ _ (by rw [List.length_map]; exact hi),
    List.getD_eq_getElem _ _ hi, List.getElem_map]

/-- `getD` at a valid index is a list member. -/
theorem getD_mem_self (dets : List EchDet) (i : ℕ) (hi : i < dets.length) :
    dets.getD i default ∈ dets := by
  rw [List.getD_eq_getElem _ _ hi]
  exact List.getElem_mem hi

/-- Initial group ids are bounded by the initial maximum. -/
theorem gini_le_maxInit (dets : List EchDet) (i : ℕ) (hi : i < dets.length) :
    (dets.getD i default).gini ≤ npMaxZ (dets.map EchDet.gini) :=
  le_npMaxZ (List.mem_map_of_mem _ (getD_mem_self dets i hi))

/-- Current id values are bounded by the running maximum. -/
theorem getD_le_npMaxZ (obj_id : List ℤ) (i : ℕ) (hi : i < obj_id.length) :
    obj_id.getD i 0 ≤ npMaxZ obj_id := by
  apply le_npMaxZ
  rw [List.getD_eq_getElem _ _ hi]
  exact List.getElem_mem hi

/-- Two members of a list with the same `indexOf` are equal. -/
theorem eq_of_indexOf_eq {l : List ℕ} {a b : ℕ} (ha : a ∈ l) (hb : b ∈ l)
    (h : l.indexOf a = l.indexOf b) : a = b := by
  have h1 := List.getElem_indexOf (List.indexOf_lt_length.mpr ha)
  have h2 := List.getElem_indexOf (List.indexOf_lt_length.mpr hb)
  rw [← h1, ← h2]
  simp only [h]

/-- The invariant holds before the loop starts (`obj_id = obj_id_init.copy()`,
line 483). -/
theorem dedupInv_init (dets : List EchDet) :
    DedupInv dets [] (dets.map EchDet.gini) := by
  refine ⟨List.length_map _ _, le_refl _, ?_, ?_, ?_, ?_⟩
  · intro i hi
    exact Or.inl (getD_map_gini dets i hi)
  · intro i j hi hj hne hlt
    rw [getD_map_gini dets i hi] at hlt
    exact absurd hlt (not_lt.mpr (gini_le_maxInit dets i hi))
  · intro gp op hmem h2
    simp at hmem
  · intro i hi _
    exact getD_map_gini dets i hi

/-- One `dedupStep` on a pair not yet processed preserves the invariant and
marks the pair processed. -/
theorem dedupStep_inv (dets : List EchDet) (done : List (ℤ × ℕ)) (g : ℤ) (o : ℕ)
    (obj_id : List ℤ) (hnew : (g, o) ∉ done) (hinv : DedupInv dets done obj_id) :
    DedupInv dets (done ++ [(g, o)]) (dedupStep dets g o obj_id) := by
  obtain ⟨hlen, hmge, hfi, hfu, hdone, hunt⟩ := hinv
  by_cases hact : 2 ≤ (memberIdx dets g o).length
  · -- active pair: reassignment happens
    have hkeep : keeperIdx dets g o ∈ memberIdx dets g o := by
      apply keeperIdx_mem
      intro hc
      rw [hc] at hact
      simp at hact
    have hndm := memberIdx_nodup dets g o
    have hkeepnr : keeperIdx dets g o ∉ (memberIdx dets g o).erase (keeperIdx dets g o) := by
      intro hc
      exact ((hndm.mem_erase_iff).mp hc).1 rfl
    have hrest_sub : ∀ i ∈ (memberIdx dets g o).erase (keeperIdx dets g o),
        i ∈ memberIdx dets g o ∧ i ≠ keeperIdx dets g o := by
      intro i hc
      have hx := (hndm.mem_erase_iff).mp hc
      exact ⟨hx.2, hx.1⟩
    have hmem_rest : ∀ i, i ∈ memberIdx dets g o → i ≠ keeperIdx dets g o →
        i ∈ (memberIdx dets g o).erase (keeperIdx dets g o) := by
      intro i h1 h2
      exact (hndm.mem_erase_iff).mpr ⟨h2, h1⟩
    have hpt : ∀ i, i < dets.length →
        (dedupStep dets g o obj_id).getD i 0
          = if i ∈ (memberIdx dets g o).erase (keeperIdx dets g o) then
              npMaxZ obj_id + 1
                + (((memberIdx dets g o).erase (keeperIdx dets g o)).indexOf i : ℤ)
            else obj_id.getD i 0 := by
      intro i hi
      rw [dedupStep_getD dets g o obj_id i (by rw [hlen]; exact hi)]
      by_cases hm : i ∈ (memberIdx dets g o).erase (keeperIdx dets g o)
      · rw [if_pos ⟨hact, hm⟩, if_pos hm]
      · rw [if_neg (fun hc => hm hc.2), if_neg hm]
    have hfresh_gt : ∀ k : ℕ,
        npMaxZ (dets.map EchDet.gini) < npMaxZ obj_id + 1 + (k : ℤ) := by
      intro k
      omega
    have hold_le : ∀ j, j < dets.length → obj_id.getD j 0 ≤ npMaxZ obj_id := by
      intro j hj
      exact getD_le_npMaxZ obj_id j (by rw [hlen]; exact hj)
    have hlen2 : (dedupStep dets g o obj_id).length = dets.length := by
      rw [dedupStep_length]
      exact hlen
    have hrest_lt : ∀ i ∈ (memberIdx dets g o).erase (keeperIdx dets g o),
        i < dets.length := by
      intro i hc
      exact (mem_memberIdx.mp (hrest_sub i hc).1).1
    have hneR : (memberIdx dets g o).erase (keeperIdx dets g o) ≠ [] :=
      List.ne_nil_of_length_pos (by rw [List.length_erase_of_mem hkeep]; omega)
    have hheadmem := List.head_mem hneR
    have hi0lt : ((memberIdx dets g o).erase (keeperIdx dets g o)).head hneR
        < dets.length := hrest_lt _ hheadmem
    have hnewmge : npMaxZ (dets.map EchDet.gini) ≤ npMaxZ (dedupStep dets g o obj_id) := by
      have hval : (dedupStep dets g o obj_id).getD
            (((memberIdx dets g o).erase (keeperIdx dets g o)).head hneR) 0
          = npMaxZ obj_id + 1
            + (((memberIdx dets g o).erase (keeperIdx dets g o)).indexOf
                (((memberIdx dets g o).erase (keeperIdx dets g o)).head hneR) : ℤ) := by
        rw [hpt _ hi0lt, if_pos hheadmem]
      have hvalmem : (dedupStep dets g o obj_id).getD
            (((memberIdx dets g o).erase (keeperIdx dets g o)).head hneR) 0
          ∈ dedupStep dets g o obj_id := by
        rw [List.getD_eq_getElem _ _ (by rw [hlen2]; exact hi0lt)]
        exact List.getElem_mem _
      have hnm := le_npMaxZ hvalmem
      rw [hval] at hnm
      have h0 : (0 : ℤ) ≤ (((memberIdx dets g o).erase (keeperIdx dets g o)).indexOf
          (((memberIdx dets g o).erase (keeperIdx dets g o)).head hneR) : ℤ) :=
        Int.natCast_nonneg _
      omega
    refine ⟨hlen2, hnewmge, ?_, ?_, ?_, ?_⟩
    · -- fresh-or-initial
      intro i hi
      rw [hpt i hi]
      by_cases hm : i ∈ (memberIdx dets g o).erase (keeperIdx dets g o)
      · rw [if_pos hm]
        exact Or.inr (hfresh_gt _)
      · rw [if_neg hm]
        exact hfi i hi
    · -- fresh ids occur at most once
      intro i j hi hj hne hlt
      rw [hpt i hi] at hlt
      rw [hpt i hi, hpt j hj]
      by_cases hmi : i ∈ (memberIdx dets g o).erase (keeperIdx dets g o) <;>
        by_cases hmj : j ∈ (memberIdx dets g o).erase (keeperIdx dets g o)
      · rw [if_pos hmi, if_pos hmj]
        intro he
        have hidx : ((memberIdx dets g o).erase (keeperIdx dets g o)).indexOf i
            = ((memberIdx dets g o).erase (keeperIdx dets g o)).indexOf j := by omega
        exact hne (eq_of_indexOf_eq hmi hmj hidx)
      · rw [if_pos hmi, if_neg hmj]
        have h1 := hold_le j hj
        have h0 : (0 : ℤ) ≤ (((memberIdx dets g o).erase (keeperIdx dets g o)).indexOf i : ℤ) :=
          Int.natCast_nonneg _
        intro he
        omega
      · rw [if_neg hmi, if_pos hmj]
        rw [if_neg hmi] at hlt
        have h1 := hold_le i hi
        have h0 : (0 : ℤ) ≤ (((memberIdx dets g o).erase (keeperIdx dets g o)).indexOf j : ℤ) :=
          Int.natCast_nonneg _
        intro he
        omega
      · rw [if_neg hmi, if_neg hmj]
        rw [if_neg hmi] at hlt
        exact hfu i j hi hj hne hlt
    · -- processed pairs keep their keeper
      intro gp op hmem h2
      rcases List.mem_append.mp hmem with hm | hm
      · have hdis : ∀ i ∈ memberIdx dets gp op,
            i ∉ (memberIdx dets g o).erase (keeperIdx dets g o) := by
          intro i hi hir
          have e1 := mem_memberIdx.mp hi
          have e2 := mem_memberIdx.mp (hrest_sub i hir).1
          apply hnew
          have hgg : g = gp := by rw [← e1.2.1, e2.2.1]
          have hoo : o = op := by rw [← e1.2.2, e2.2.2]
          rw [hgg, hoo]
          exact hm
        obtain ⟨hk, ho⟩ := hdone gp op hm h2
        have hkm : keeperIdx dets gp op ∈ memberIdx dets gp op := by
          apply keeperIdx_mem
          intro hc
          rw [hc] at h2
          simp at h2
        constructor
        · rw [hpt _ (mem_memberIdx.mp hkm).1, if_neg (hdis _ hkm)]
          exact hk
        · intro i him hine
          rw [hpt _ (mem_memberIdx.mp him).1, if_neg (hdis _ him)]
          exact ho i him hine
      · rw [List.mem_singleton] at hm
        have hg : gp = g := congrArg Prod.fst hm
        have ho : op = o := congrArg Prod.snd hm
        subst hg
        subst ho
        constructor
        · rw [hpt _ (mem_memberIdx.mp hkeep).1, if_neg hkeepnr]
          have hkl := mem_memberIdx.mp hkeep
          have hu := hunt _ hkl.1 (by rw [hkl.2.1, hkl.2.2]; exact hnew)
          rw [hu, hkl.2.1]
        · intro i him hine
          rw [hpt _ (mem_memberIdx.mp him).1, if_pos (hmem_rest i him hine)]
          exact hfresh_gt _
    · -- unprocessed members untouched
      intro i hi hnot
      have hnd : ((dets.getD i default).gini, (dets.getD i default).ordI) ∉ done :=
        fun hc => hnot (List.mem_append_left _ hc)
      have hm : i ∉ (memberIdx dets g o).erase (keeperIdx dets g o) := by
        intro hc
        have hx := mem_memberIdx.mp (hrest_sub i hc).1
        exact hnot (List.mem_append_right _
          (by rw [hx.2.1, hx.2.2]; exact List.mem_singleton.mpr rfl))
      rw [hpt i hi, if_neg hm]
      exact hunt i hi hnd
  · -- inactive pair: the id array is unchanged
    rw [dedupStep_of_le_one obj_id (by omega)]
    refine ⟨hlen, hmge, hfi, hfu, ?_, ?_⟩
    · intro gp op hmem h2
      rcases List.mem_append.mp hmem with hm | hm
      · exact hdone gp op hm h2
      · rw [List.mem_singleton] at hm
        have hg : gp = g := congrArg Prod.fst hm
        have ho : op = o := congrArg Prod.snd hm
        subst hg
        subst ho
        exact absurd h2 hact
    · intro i hi hnot
      exact hunt i hi (fun hc => hnot (List.mem_append_left _ hc))

/-- Folding `dedupStep` over a list of fresh, duplicate-free pairs extends the
invariant to cover those pairs. -/
theorem dedupFold_inv (dets : List EchDet) :
    ∀ (ps done : List (ℤ × ℕ)) (obj_id : List ℤ),
      DedupInv dets done obj_id → (∀ p ∈ ps, p ∉ done) → ps.Nodup →
      DedupInv dets (done ++ ps)
        (ps.foldl (fun ids p => dedupStep dets p.1 p.2 ids) obj_id) := by
  intro ps
  induction ps with
  | nil =>
      intro done obj_id hinv _ _
      simpa using hinv
  | cons p t ih =>
      intro done obj_id hinv hnotin hnd
      have h1 := dedupStep_inv dets done p.1 p.2 obj_id
        (by rw [Prod.mk.eta]; exact hnotin p (List.mem_cons_self p t)) hinv
      rw [Prod.mk.eta] at h1
      have hnotin2 : ∀ q ∈ t, q ∉ done ++ [p] := by
        intro q hq hc
        rcases List.mem_append.mp hc with hc1 | hc1
        · exact hnotin q (List.mem_cons_of_mem p hq) hc1
        · rw [List.mem_singleton] at hc1
          exact (List.nodup_cons.mp hnd).1 (hc1 ▸ hq)
      have h2 := ih (done ++ [p]) _ h1 hnotin2 (List.nodup_cons.mp hnd).2
      rw [List.append_assoc] at h2
      simpa using h2

/-- The nested outer/inner loops of `resolveDuplicates` are a flat fold over
the `(group, order)` pairs in loop order. -/
theorem nestedFold_eq_foldl_pairs (dets : List EchDet) (norders : ℕ) :
    ∀ (gs : List ℤ) (s : List ℤ),
      gs.foldl (fun obj_id g =>
          (List.range norders).foldl (fun obj_id o => dedupStep dets g o obj_id) obj_id) s
        = (gs.flatMap (fun g => (List.range norders).map (fun o => (g, o)))).foldl
            (fun ids p => dedupStep dets p.1 p.2 ids) s := by
  intro gs
  induction gs with
  | nil =>
      intro s
      rfl
  | cons g t ih =>
      intro s
      rw [List.foldl_cons, List.flatMap_cons, List.foldl_append, List.foldl_map, ih]

/-- The loop pairs are duplicate-free when the outer group list is. -/
theorem pairs_nodup (n : ℕ) :
    ∀ gs : List ℤ, gs.Nodup →
      (gs.flatMap (fun g => (List.range n).map (fun o => (g, o)))).Nodup := by
  intro gs
  induction gs with
  | nil =>
      intro _
      simp
  | cons g t ih =>
      intro hnd
      rw [List.flatMap_cons, List.nodup_append]
      refine ⟨?_, ih (List.nodup_cons.mp hnd).2, ?_⟩
      · exact (List.nodup_range n).map (fun a b hab => (Prod.mk.injEq g a g b ▸ hab).2
          |> fun h => by injection hab)
      · intro x hx1 hx2
        rw [List.mem_map] at hx1
        obtain ⟨o, _, rfl⟩ := hx1
        rw [List.mem_flatMap] at hx2
        obtain ⟨gq, hgq, hx2⟩ := hx2
        rw [List.mem_map] at hx2
        obtain ⟨oq, _, he⟩ := hx2
        have : gq = g := congrArg Prod.fst he
        exact (List.nodup_cons.mp hnd).1 (this ▸ hgq)

/-- `npUnique` keeps no duplicates. -/
theorem npUnique_nodup (l : List ℤ) : (npUnique l).Nodup :=
  (List.perm_insertionSort _ _).symm.nodup (List.nodup_dedup l)

/-- `npUnique` keeps exactly the values of the input. -/
theorem mem_npUnique {l : List ℤ} {a : ℤ} : a ∈ npUnique l ↔ a ∈ l := by
  unfold npUnique
  rw [List.mem_insertionSort, List.mem_dedup]

/-- A filter of a duplicate-free list whose property holds for at most one
element has length at most 1. -/
theorem length_filter_le_one {α : Type} (l : List α) (p : α → Bool) (hnd : l.Nodup)
    (h : ∀ a b, a ∈ l → b ∈ l → p a = true → p b = true → a = b) :
    (l.filter p).length ≤ 1 := by
  cases hf : l.filter p with
  | nil => simp
  | cons a t =>
      cases t with
      | nil => simp
      | cons b t2 =>
          exfalso
          have hnodf : (a :: b :: t2).Nodup := hf ▸ hnd.filter p
          have hab : a ≠ b := by
            intro he
            exact (List.nodup_cons.mp hnodf).1 (he ▸ List.mem_cons_self b t2)
          have haf : a ∈ l.filter p := hf ▸ List.mem_cons_self a (b :: t2)
          have hbf : b ∈ l.filter p :=
            hf ▸ List.mem_cons_of_mem a (List.mem_cons_self b t2)
          rw [List.mem_filter] at haf hbf
          exact hab (h a b haf.1 hbf.1 haf.2 hbf.2)

/-- A filter of a duplicate-free list whose property holds for exactly one
element has length exactly 1. -/
theorem length_filter_eq_one {α : Type} (l : List α) (p : α → Bool) (hnd : l.Nodup)
    (hex : ∃ a ∈ l, p a = true)
    (h : ∀ a b, a ∈ l → b ∈ l → p a = true → p b = true → a = b) :
    (l.filter p).length = 1 := by
  obtain ⟨a, ha, hpa⟩ := hex
  have h1 : a ∈ l.filter p := List.mem_filter.mpr ⟨ha, hpa⟩
  have h2 := List.length_pos_of_mem h1
  have h3 := length_filter_le_one l p hnd h
  omega

/-- Two distinct members force length at least 2. -/
theorem two_le_length_of_mem {α : Type} {a b : α} {l : List α}
    (hab : a ≠ b) (ha : a ∈ l) (hb : b ∈ l) : 2 ≤ l.length := by
  obtain ⟨s, t, rfl⟩ := List.append_of_mem ha
  rw [List.length_append, List.length_cons]
  rcases List.mem_append.mp hb with hbs | hbt
  · have := List.length_pos_of_mem hbs
    omega
  · rcases List.mem_cons.mp hbt with he | hbt2
    · exact absurd he.symm hab
    · have := List.length_pos_of_mem hbt2
      omega

/-- The invariant after the full duplicate-resolution pass: every
`(unique initial group id, order)` pair has been processed. -/
theorem dedupInv_final (norders : ℕ) (dets : List EchDet) :
    DedupInv dets
      ((npUnique (dets.map EchDet.gini)).flatMap
        (fun g => (List.range norders).map (fun o => (g, o))))
      (resolveDuplicates norders dets) := by
  unfold resolveDuplicates
  rw [nestedFold_eq_foldl_pairs]
  have h := dedupFold_inv dets
    ((npUnique (dets.map EchDet.gini)).flatMap
      (fun g => (List.range norders).map (fun o => (g, o))))
    [] (dets.map EchDet.gini) (dedupInv_init dets) (by simp)
    (pairs_nodup norders _ (npUnique_nodup _))
  simpa using h

/-- Every `(group, order)` pair of an actual detection is processed by the
loop. -/
theorem pair_mem_pairs {dets : List EchDet} {norders : ℕ} {g : ℤ} {o : ℕ}
    (hg : g ∈ dets.map EchDet.gini) (ho : o < norders) :
    (g, o) ∈ (npUnique (dets.map EchDet.gini)).flatMap
        (fun gq => (List.range norders).map (fun oq => (gq, oq))) := by
  rw [List.mem_flatMap]
  exact ⟨g, mem_npUnique.mpr hg, List.mem_map.mpr ⟨o, List.mem_range.mpr ho, rfl⟩⟩

/-- C5: after the duplicate-resolution loop of `ech_objfind` (lines 483-506),
for every friends-of-friends group with more than one detection on the same
order: (a) the detection closest to the mean fractional position of the group's
members on other orders (the first detection when the group has no member on
any other order — this is `keeperIdx`) retains the group id; (b) every other
duplicate carries an id that coincides with no initial group id and is carried
by exactly one detection (a fresh singleton group); and (c) afterwards every
`(group id, order)` pair has at most one detection. -/
theorem C5_duplicate_resolution (norders : ℕ) (dets : List EchDet)
    (hord : ∀ d ∈ dets, d.ordI < norders) :
    (∀ g o, 2 ≤ (memberIdx dets g o).length →
        (resolveDuplicates norders dets).getD (keeperIdx dets g o) 0 = g) ∧
    (∀ g o, 2 ≤ (memberIdx dets g o).length →
        ∀ i ∈ memberIdx dets g o, i ≠ keeperIdx dets g o →
          (∀ d ∈ dets, (resolveDuplicates norders dets).getD i 0 ≠ d.gini) ∧
          ((List.range dets.length).filter
              (fun j => (resolveDuplicates norders dets).getD j 0
                  == (resolveDuplicates norders dets).getD i 0)).length = 1) ∧
    (∀ (g : ℤ) (o : ℕ),
        ((List.range dets.length).filter
            (fun j => ((resolveDuplicates norders dets).getD j 0 == g)
                && ((dets.getD j default).ordI == o))).length ≤ 1) := by
  obtain ⟨hlen, hmge, hfi, hfu, hdone, hunt⟩ := dedupInv_final norders dets
  have hpairmem : ∀ {g : ℤ} {o i : ℕ}, i ∈ memberIdx dets g o →
      (g, o) ∈ (npUnique (dets.map EchDet.gini)).flatMap
        (fun gq => (List.range norders).map (fun oq => (gq, oq))) := by
    intro g o i hi
    have hx := mem_memberIdx.mp hi
    apply pair_mem_pairs
    · rw [← hx.2.1]
      exact List.mem_map_of_mem _ (getD_mem_self dets i hx.1)
    · rw [← hx.2.2]
      exact hord _ (getD_mem_self dets i hx.1)
  refine ⟨?_, ?_, ?_⟩
  · intro g o h2
    have hkeep : keeperIdx dets g o ∈ memberIdx dets g o := by
      apply keeperIdx_mem
      intro hc
      rw [hc] at h2
      simp at h2
    exact (hdone g o (hpairmem hkeep) h2).1
  · intro g o h2 i him hine
    have hfreshi := (hdone g o (hpairmem him) h2).2 i him hine
    have hilt := (mem_memberIdx.mp him).1
    constructor
    · intro d hd
      have hle : d.gini ≤ npMaxZ (dets.map EchDet.gini) :=
        le_npMaxZ (List.mem_map_of_mem _ hd)
      omega
    · apply length_filter_eq_one _ _ (List.nodup_range _)
      · exact ⟨i, List.mem_range.mpr hilt, beq_self_eq_true _⟩
      · intro a b ha hb hpa hpb
        rw [beq_iff_eq] at hpa hpb
        by_contra hne
        exact (hfu a b (List.mem_range.mp ha) (List.mem_range.mp hb) hne
          (by rw [hpa]; exact hfreshi)) (hpa.trans hpb.symm)
  · intro g o
    apply length_filter_le_one _ _ (List.nodup_range _)
    intro a b ha hb hpa hpb
    rw [Bool.and_eq_true, beq_iff_eq, beq_iff_eq] at hpa hpb
    obtain ⟨hva, hoa⟩ := hpa
    obtain ⟨hvb, hob⟩ := hpb
    have han := List.mem_range.mp ha
    have hbn := List.mem_range.mp hb
    by_contra hne
    rcases hfi a han with hea | hfa
    · rcases hfi b hbn with heb | hfb
      · have hma : a ∈ memberIdx dets g o :=
          mem_memberIdx.mpr ⟨han, by rw [← hea, hva], hoa⟩
        have hmb : b ∈ memberIdx dets g o :=
          mem_memberIdx.mpr ⟨hbn, by rw [← heb, hvb], hob⟩
        have h2 : 2 ≤ (memberIdx dets g o).length := two_le_length_of_mem hne hma hmb
        have hd := hdone g o (hpairmem hma) h2
        have hka : a = keeperIdx dets g o := by
          by_contra hka
          have hfr := hd.2 a hma hka
          have hle := gini_le_maxInit dets a han
          rw [← hea] at hle
          omega
        have hkb : b = keeperIdx dets g o := by
          by_contra hkb
          have hfr := hd.2 b hmb hkb
          have hle := gini_le_maxInit dets b hbn
          rw [← heb] at hle
          omega
        exact hne (hka.trans hkb.symm)
      · exact (hfu b a hbn han (fun he => hne he.symm) hfb) (hvb.trans hva.symm)
    · exact (hfu a b han hbn hne hfa) (hva.trans hvb.symm)

/-- Witness for C5 on `detsC5ex`: group 0 has two detections on order 0 and one
on order 1, over two orders. -/
theorem C5_duplicate_resolution_witness :
    (∀ d ∈ detsC5ex, d.ordI < 2) ∧
    ((∀ g o, 2 ≤ (memberIdx detsC5ex g o).length →
        (resolveDuplicates 2 detsC5ex).getD (keeperIdx detsC5ex g o) 0 = g) ∧
     (∀ g o, 2 ≤ (memberIdx detsC5ex g o).length →
        ∀ i ∈ memberIdx detsC5ex g o, i ≠ keeperIdx detsC5ex g o →
          (∀ d ∈ detsC5ex, (resolveDuplicates 2 detsC5ex).getD i 0 ≠ d.gini) ∧
          ((List.range detsC5ex.length).filter
              (fun j => (resolveDuplicates 2 detsC5ex).getD j 0
                  == (resolveDuplicates 2 detsC5ex).getD i 0)).length = 1) ∧
     (∀ (g : ℤ) (o : ℕ),
        ((List.range detsC5ex.length).filter
            (fun j => ((resolveDuplicates 2 detsC5ex).getD j 0 == g)
                && ((detsC5ex.getD j default).ordI == o))).length ≤ 1)) :=
  ⟨by decide, C5_duplicate_resolution 2 detsC5ex (by decide)⟩
